import Mathlib

/-!
Verification of the anitya version-scheme core and HTTP API helpers.

The version-scheme engine (value objects, scheme strategies, registry,
candidate-set reducer, change detector) is described in spec.md; its
implementation module `anitya/lib/versions.py` is not under `src/`, only its
tests and callers are, so those components are modelled from the spec (and,
where the in-repo tests pin a behaviour, from the tests).  The HTTP API
helpers (`_page_validator`, `_items_per_page_validator`,
`ProjectsResource.post`) are embedded from `src/anitya/api_v2.py`, and
`BaseQuery.paginate` is modelled from its tests in
`src/anitya/tests/lib/test_model.py`.
-/

deriving instance DecidableEq for Except

namespace Anitya

open Batteries (OrientedCmp TransCmp)
open List (Perm)
open scoped List

/-! ## Segments and segment comparison (generic scheme tokens) -/

/-- Modelled from the spec: a token of a parsed version string.  The generic
strategy (spec §4.2) splits a normalized string on non-alphanumeric
boundaries into numeric and alphabetic segments. -/
inductive Seg where
  | num (n : Nat)
  | alpha (s : List Char)
  deriving DecidableEq

/-- Lexicographic comparison of two character lists (used for alphabetic
segments, which the spec orders lexicographically). -/
def chsCmp : List Char → List Char → Ordering
  | [], [] => .eq
  | [], _ :: _ => .lt
  | _ :: _, [] => .gt
  | a :: as, b :: bs => (compare a b).then (chsCmp as bs)

instance chsCmp_orientedCmp : OrientedCmp chsCmp where
  symm x y := by
    induction x generalizing y with
    | nil => cases y <;> rfl
    | cons a as ih =>
      cases y with
      | nil => rfl
      | cons b bs =>
        simp only [chsCmp, Ordering.swap_then, OrientedCmp.symm, ih]

instance chsCmp_transCmp : TransCmp chsCmp where
  le_trans {x y z} h1 h2 := by
    induction x generalizing y z with
    | nil => cases z <;> simp [chsCmp]
    | cons a as ih =>
      cases y with
      | nil => simp [chsCmp] at h1
      | cons b bs =>
        cases z with
        | nil => simp [chsCmp] at h2
        | cons c cs =>
          simp only [chsCmp, ne_eq, Ordering.then_eq_gt, not_or, not_and] at h1 h2 ⊢
          refine ⟨TransCmp.le_trans h1.1 h2.1, fun e1 e2 => ?_⟩
          match ab : compare a b with
          | .gt => exact h1.1 ab
          | .eq => exact ih (h1.2 ab) (h2.2 (TransCmp.cmp_congr_left ab ▸ e1)) e2
          | .lt => exact h2.1 <| OrientedCmp.cmp_eq_gt.2 (TransCmp.cmp_congr_left e1 ▸ ab)

theorem chsCmp_eq_iff (a b : List Char) : chsCmp a b = .eq ↔ a = b := by
  induction a generalizing b with
  | nil => cases b <;> simp [chsCmp]
  | cons x xs ih =>
    cases b with
    | nil => simp [chsCmp]
    | cons y ys =>
      simp [chsCmp, Ordering.then_eq_eq, ih, Batteries.BEqCmp.cmp_iff_eq]

/-- Modelled from the spec: comparison of two segments of the generic scheme
(spec §4.2): numeric segments compare numerically, alphabetic segments
compare lexicographically, and a purely numeric segment always sorts higher
than an alphabetic segment at the same position. -/
def segCmp : Seg → Seg → Ordering
  | .num a, .num b => compare a b
  | .alpha a, .alpha b => chsCmp a b
  | .num _, .alpha _ => .gt
  | .alpha _, .num _ => .lt

instance segCmp_orientedCmp : OrientedCmp segCmp where
  symm x y := by
    match x, y with
    | .num a, .num b =>
      show (compare a b).swap = compare b a
      exact OrientedCmp.symm a b
    | .num a, .alpha b => rfl
    | .alpha a, .num b => rfl
    | .alpha a, .alpha b =>
      show (chsCmp a b).swap = chsCmp b a
      exact OrientedCmp.symm a b

instance segCmp_transCmp : TransCmp segCmp where
  le_trans {x y z} h1 h2 := by
    cases x <;> cases y <;> cases z <;> simp_all [segCmp]
    · exact TransCmp.le_trans h1 h2
    · exact TransCmp.le_trans h1 h2

theorem segCmp_eq_iff (a b : Seg) : segCmp a b = .eq ↔ a = b := by
  cases a <;> cases b <;>
    simp [segCmp, chsCmp_eq_iff, Batteries.BEqCmp.cmp_iff_eq]

/-! ## Comparison of token sequences (with zero padding) -/

/-- Comparison of an exhausted left sequence against the remaining right
segments, each compared against the zero padding segment. -/
def cmpNil : List Seg → Ordering
  | [] => .eq
  | b :: bs => (segCmp (.num 0) b).then (cmpNil bs)

/-- Modelled from the spec: comparison of two token sequences (spec §4.2):
segment-by-segment, with the shorter sequence padded with zero segments, so
that equal-valued-but-textually-different strings such as `1.0` and `1.0.0`
compare equal. -/
def cmpList : List Seg → List Seg → Ordering
  | [], b => cmpNil b
  | a :: as, [] => (segCmp a (.num 0)).then (cmpList as [])
  | a :: as, b :: bs => (segCmp a b).then (cmpList as bs)

/-- Head of a token sequence, a zero segment when exhausted. -/
def segHd : List Seg → Seg
  | [] => .num 0
  | a :: _ => a

/-- Tail of a token sequence, empty when exhausted. -/
def segTl : List Seg → List Seg
  | [] => []
  | _ :: as => as

theorem cmpList_unfold (a b : List Seg) :
    cmpList a b = (segCmp (segHd a) (segHd b)).then (cmpList (segTl a) (segTl b)) := by
  have h0 : segCmp (.num 0) (.num 0) = .eq := segCmp_eq_iff _ _ |>.2 rfl
  match a, b with
  | [], [] =>
    show cmpNil [] = (segCmp (.num 0) (.num 0)).then (cmpNil [])
    rw [h0]
    rfl
  | [], _ :: _ => rfl
  | _ :: _, [] => rfl
  | _ :: _, _ :: _ => rfl

theorem cmpList_symm (x y : List Seg) : (cmpList x y).swap = cmpList y x := by
  generalize hn : x.length + y.length = n
  induction n using Nat.strong_induction_on generalizing x y with
  | _ n ih =>
  rw [cmpList_unfold x y, cmpList_unfold y x]
  by_cases hxy : x = [] ∧ y = []
  · obtain ⟨rfl, rfl⟩ := hxy
    rfl
  · have hlt : (segTl x).length + (segTl y).length < n := by
      subst hn
      rcases x with _ | ⟨x0, xs⟩ <;> rcases y with _ | ⟨y0, ys⟩ <;>
        simp_all [segTl]
      all_goals omega
    rw [Ordering.swap_then, OrientedCmp.symm, ih _ hlt (segTl x) (segTl y) rfl]

instance cmpList_orientedCmp : OrientedCmp cmpList where
  symm x y := cmpList_symm x y

theorem cmpList_le_trans (x y z : List Seg) (h1 : cmpList x y ≠ .gt)
    (h2 : cmpList y z ≠ .gt) : cmpList x z ≠ .gt := by
  generalize hn : x.length + y.length + z.length = n
  induction n using Nat.strong_induction_on generalizing x y z with
  | _ n ih =>
  by_cases hx : x = [] ∧ y = [] ∧ z = []
  · obtain ⟨rfl, rfl, rfl⟩ := hx
    simp [cmpList, cmpNil]
  · rw [cmpList_unfold x y] at h1
    rw [cmpList_unfold y z] at h2
    rw [cmpList_unfold x z]
    have hlt : (segTl x).length + (segTl y).length + (segTl z).length < n := by
      subst hn
      rcases x with _ | ⟨x0, xs⟩ <;> rcases y with _ | ⟨y0, ys⟩ <;>
        rcases z with _ | ⟨z0, zs⟩ <;> simp_all [segTl] <;> omega
    simp only [ne_eq, Ordering.then_eq_gt, not_or, not_and] at h1 h2 ⊢
    refine ⟨TransCmp.le_trans h1.1 h2.1, fun e1 e2 => ?_⟩
    match ab : segCmp (segHd x) (segHd y) with
    | .gt => exact h1.1 ab
    | .eq =>
      exact ih _ hlt (segTl x) (segTl y) (segTl z) (h1.2 ab)
        (h2.2 (TransCmp.cmp_congr_left ab ▸ e1)) rfl e2
    | .lt => exact h2.1 <| OrientedCmp.cmp_eq_gt.2 (TransCmp.cmp_congr_left e1 ▸ ab)

instance cmpList_transCmp : TransCmp cmpList where
  le_trans h1 h2 := cmpList_le_trans _ _ _ h1 h2

/-! ## The generic tokenizer -/

/-- Numeric value of a run of decimal digits. -/
def digitsToNat (l : List Char) : Nat :=
  l.foldl (fun acc c => 10 * acc + (c.toNat - 48)) 0

/-- Flush the pending run, if any, into a one-segment list. -/
def runFlush : Option Seg → List Seg
  | none => []
  | some sg => [sg]

/-- Modelled from the spec: the generic strategy's tokenizer (spec §4.2):
split the normalized string on non-alphanumeric boundaries into numeric and
alphabetic runs; other characters only separate runs.  Single pass with the
current run carried as state. -/
def tokenizeAux : Option Seg → List Char → List Seg
  | pending, [] => runFlush pending
  | pending, c :: cs =>
    if c.isDigit then
      match pending with
      | some (.num n) => tokenizeAux (some (.num (10 * n + (c.toNat - 48)))) cs
      | _ => runFlush pending ++ tokenizeAux (some (.num (c.toNat - 48))) cs
    else if c.isAlpha then
      match pending with
      | some (.alpha s) => tokenizeAux (some (.alpha (s ++ [c]))) cs
      | _ => runFlush pending ++ tokenizeAux (some (.alpha [c])) cs
    else
      runFlush pending ++ tokenizeAux none cs

/-- Tokenize a whole string under the generic scheme. -/
def tokenize (s : String) : List Seg := tokenizeAux none s.data

/-! ## Version value objects and scheme strategies -/

/-- Modelled from the spec: the Version value object (spec §3, §4.1):
the raw string as fetched, the normalized (prefix-stripped) form, the
scheme identifier of the strategy that produced it, the exclusion mark,
and the strategy-specific precedence key. -/
structure Version where
  raw : String
  normalized : String
  scheme : String
  excluded : Bool
  key : List Seg
  deriving DecidableEq

/-- Modelled from the spec: a scheme strategy (spec §4.2): a scheme name
and a parser from the normalized string to the token sequence, failing
with a reason when the grammar cannot tokenize the string at all. -/
structure Strategy where
  name : String
  parse : String → Except String (List Seg)

/-- Modelled from the spec: the generic fallback strategy (spec §4.2);
its tokenization never fails. -/
def genericStrategy : Strategy :=
  ⟨"Generic", fun s => .ok (tokenize s)⟩

/-- True when the segment is alphabetic. -/
def segIsAlpha : Seg → Bool
  | .alpha _ => true
  | .num _ => false

/-- Modelled from the spec: a strictly numeric scheme (spec §4.1 and §8
scenario 6): parsing fails when the string has no digit runs or contains
alphabetic runs. -/
def numericParse (s : String) : Except String (List Seg) :=
  let segs := tokenize s
  if segs.isEmpty || segs.any segIsAlpha then
    .error "no numeric components"
  else
    .ok segs

/-- The strictly numeric strategy of spec §8 scenario 6. -/
def numericStrategy : Strategy := ⟨"Numeric", numericParse⟩

/-- Modelled from the spec: prefix stripping (spec §4.1): when the
configured prefix is non-empty and the raw string starts with it, it is
removed before normalization; otherwise the raw string is used
unmodified. -/
def stripPfx (pfx raw : String) : String :=
  if pfx ≠ "" ∧ pfx.data.isPrefixOf raw.data then
    String.mk (raw.data.drop pfx.data.length)
  else
    raw

/-- Modelled from the spec: construction of a Version value object (spec
§4.1): strip the prefix, check the exclusion pattern against the original
raw string, and parse the normalized form with the strategy. -/
def construct (strat : Strategy) (pfx : String) (excl : String → Bool)
    (raw : String) : Except (String × String) Version :=
  match strat.parse (stripPfx pfx raw) with
  | .error e => .error (raw, e)
  | .ok k => .ok ⟨raw, stripPfx pfx raw, strat.name, excl raw, k⟩

/-! ## Stable descending insertion sort -/

/-- Insert an element into a descending-sorted list, after every entry
that does not sort strictly below it, so equal-precedence entries keep
first-appearance order (spec §4.4). -/
def insAfterEq {α : Type} (cmp : α → α → Ordering) (x : α) : List α → List α
  | [] => [x]
  | y :: ys => if cmp x y = .gt then x :: y :: ys else y :: insAfterEq cmp x ys

/-- Stable descending sort by repeated insertion, processing the input in
order of first appearance. -/
def stableSortDesc {α : Type} (cmp : α → α → Ordering) (l : List α) : List α :=
  l.foldl (fun acc x => insAfterEq cmp x acc) []

theorem mem_insAfterEq {α : Type} (cmp : α → α → Ordering) (x : α) (l : List α)
    (w : α) : w ∈ insAfterEq cmp x l ↔ w = x ∨ w ∈ l := by
  induction l with
  | nil => simp [insAfterEq]
  | cons y ys ih =>
    simp only [insAfterEq]
    split
    · simp [List.mem_cons]
    · simp [List.mem_cons, ih]
      tauto

theorem insAfterEq_perm {α : Type} (cmp : α → α → Ordering) (x : α) (l : List α) :
    insAfterEq cmp x l ~ x :: l := by
  induction l with
  | nil => exact List.Perm.refl _
  | cons y ys ih =>
    simp only [insAfterEq]
    split
    · exact List.Perm.refl _
    · exact (ih.cons y).trans (List.Perm.swap x y ys)

theorem pairwise_insAfterEq {α : Type} (cmp : α → α → Ordering) (R : α → α → Prop)
    (x : α) (l : List α)
    (hl : l.Pairwise R)
    (h1 : ∀ y ∈ l, cmp x y ≠ .gt → R y x)
    (h2 : ∀ y ∈ l, cmp x y = .gt → R x y)
    (h3 : ∀ z ∈ l, ∀ w ∈ l, cmp x z = .gt → R z w → cmp x w = .gt) :
    (insAfterEq cmp x l).Pairwise R := by
  induction l with
  | nil => simp [insAfterEq]
  | cons y ys ih =>
    rw [List.pairwise_cons] at hl
    simp only [insAfterEq]
    split
    · rename_i hgt
      rw [List.pairwise_cons]
      refine ⟨fun w hw => ?_, List.pairwise_cons.2 hl⟩
      rcases List.mem_cons.1 hw with rfl | hw'
      · exact h2 w (List.mem_cons_self ..) hgt
      · exact h2 w (List.mem_cons_of_mem _ hw')
          (h3 y (List.mem_cons_self ..) w (List.mem_cons_of_mem _ hw') hgt (hl.1 w hw'))
    · rename_i hng
      rw [List.pairwise_cons]
      refine ⟨fun w hw => ?_, ?_⟩
      · rcases (mem_insAfterEq cmp x ys w).1 hw with rfl | hw'
        · exact h1 y (List.mem_cons_self ..) hng
        · exact hl.1 w hw'
      · exact ih hl.2
          (fun u hu => h1 u (List.mem_cons_of_mem _ hu))
          (fun u hu => h2 u (List.mem_cons_of_mem _ hu))
          (fun u hu w hw => h3 u (List.mem_cons_of_mem _ hu) w (List.mem_cons_of_mem _ hw))

theorem foldl_insAfterEq_perm {α : Type} (cmp : α → α → Ordering)
    (l acc : List α) :
    l.foldl (fun a x => insAfterEq cmp x a) acc ~ l ++ acc := by
  induction l generalizing acc with
  | nil => simp
  | cons x xs ih =>
    calc (x :: xs).foldl (fun a x => insAfterEq cmp x a) acc
        = xs.foldl (fun a x => insAfterEq cmp x a) (insAfterEq cmp x acc) := rfl
      _ ~ xs ++ insAfterEq cmp x acc := ih _
      _ ~ xs ++ x :: acc := List.Perm.append_left xs (insAfterEq_perm cmp x acc)
      _ ~ x :: (xs ++ acc) := List.perm_middle
      _ = (x :: xs) ++ acc := rfl

theorem stableSortDesc_perm {α : Type} (cmp : α → α → Ordering) (l : List α) :
    stableSortDesc cmp l ~ l := by
  simpa using foldl_insAfterEq_perm cmp l []

/-! ## Candidate set reducer -/

/-- Modelled from the spec: process each raw string independently (spec
§4.4), tagging successes with their input position and collecting parse
failures with their reasons; a failure never aborts the rest of the
batch. -/
def processBatch (strat : Strategy) (pfx : String) (excl : String → Bool) :
    Nat → List String → List (Nat × Version) × List (String × String)
  | _, [] => ([], [])
  | i, raw :: rest =>
    let done := processBatch strat pfx excl (i + 1) rest
    match construct strat pfx excl raw with
    | .error e => (done.1, e :: done.2)
    | .ok v => ((i, v) :: done.1, done.2)

/-- Comparison of indexed versions by precedence key alone. -/
def pairCmp (a b : Nat × Version) : Ordering := cmpList a.2.key b.2.key

instance pairCmp_orientedCmp : OrientedCmp pairCmp where
  symm x y := cmpList_symm x.2.key y.2.key

instance pairCmp_transCmp : TransCmp pairCmp where
  le_trans h1 h2 := cmpList_le_trans _ _ _ h1 h2

/-- The reducer's ordered history with input positions retained. -/
def reduceIndexed (strat : Strategy) (pfx : String) (excl : String → Bool)
    (raws : List String) : List (Nat × Version) :=
  stableSortDesc pairCmp (processBatch strat pfx excl 0 raws).1

/-- Modelled from the spec: the reducer's output (spec §4.4): the ordered
release history, the newest non-excluded release, and the collected parse
errors. -/
structure Reduction where
  ordered_history : List Version
  newest : Option Version
  errors : List (String × String)
  deriving DecidableEq

/-- Modelled from the spec: the candidate set reducer (spec §4.4): parse
every raw string independently, sort the successes in stable descending
precedence order, select the first non-excluded entry as newest, and
collect the parse failures. -/
def reduce (strat : Strategy) (pfx : String) (excl : String → Bool)
    (raws : List String) : Reduction :=
  let hist := (reduceIndexed strat pfx excl raws).map Prod.snd
  ⟨hist, hist.find? (fun v => !v.excluded), (processBatch strat pfx excl 0 raws).2⟩

/-- The combined sortedness-and-stability relation on indexed versions:
never ascending in precedence, and strictly increasing input position on
equal precedence. -/
def pairSS (u v : Nat × Version) : Prop :=
  pairCmp u v ≠ .lt ∧ (pairCmp u v = .eq → u.1 < v.1)

theorem foldl_ins_pairSS (l acc : List (Nat × Version))
    (hacc : acc.Pairwise pairSS)
    (hidx : ∀ p ∈ acc, ∀ q ∈ l, p.1 < q.1)
    (hl : l.Pairwise (fun u v => u.1 < v.1)) :
    (l.foldl (fun a x => insAfterEq pairCmp x a) acc).Pairwise pairSS := by
  induction l generalizing acc with
  | nil => exact hacc
  | cons x xs ih =>
    rw [List.pairwise_cons] at hl
    have hacc' : (insAfterEq pairCmp x acc).Pairwise pairSS := by
      refine pairwise_insAfterEq pairCmp pairSS x acc hacc ?_ ?_ ?_
      · intro y hy hng
        exact ⟨OrientedCmp.cmp_ne_gt.1 hng,
          fun _ => hidx y hy x (List.mem_cons_self ..)⟩
      · intro y hy hgt
        refine ⟨?_, ?_⟩
        · rw [hgt]; simp
        · intro he; rw [hgt] at he; cases he
      · intro z hz w hw hgt hzw
        match h : pairCmp z w with
        | .lt => exact absurd h hzw.1
        | .eq => exact TransCmp.cmp_congr_right h ▸ hgt
        | .gt => exact TransCmp.gt_trans hgt h
    have hidx' : ∀ p ∈ insAfterEq pairCmp x acc, ∀ q ∈ xs, p.1 < q.1 := by
      intro p hp q hq
      rcases (mem_insAfterEq pairCmp x acc p).1 hp with rfl | hp'
      · exact hl.1 q hq
      · exact hidx p hp' q (List.mem_cons_of_mem _ hq)
    exact ih _ hacc' hidx' hl.2

theorem processBatch_fst_idx (strat : Strategy) (pfx : String)
    (excl : String → Bool) (i : Nat) (raws : List String) :
    (∀ p ∈ (processBatch strat pfx excl i raws).1, i ≤ p.1) ∧
      (processBatch strat pfx excl i raws).1.Pairwise (fun u v => u.1 < v.1) := by
  induction raws generalizing i with
  | nil => simp [processBatch]
  | cons raw rest ih =>
    simp only [processBatch]
    match construct strat pfx excl raw with
    | .error e =>
      refine ⟨fun p hp => ?_, (ih (i + 1)).2⟩
      exact le_trans (Nat.le_succ i) ((ih (i + 1)).1 p hp)
    | .ok v =>
      refine ⟨fun p hp => ?_, ?_⟩
      · rcases List.mem_cons.1 hp with rfl | hp'
        · exact Nat.le_refl i
        · exact le_trans (Nat.le_succ i) ((ih (i + 1)).1 p hp')
      · rw [List.pairwise_cons]
        exact ⟨fun q hq => Nat.lt_of_succ_le ((ih (i + 1)).1 q hq), (ih (i + 1)).2⟩

theorem reduceIndexed_pairwise (strat : Strategy) (pfx : String)
    (excl : String → Bool) (raws : List String) :
    (reduceIndexed strat pfx excl raws).Pairwise pairSS := by
  refine foldl_ins_pairSS _ [] List.Pairwise.nil (by simp) ?_
  exact (processBatch_fst_idx strat pfx excl 0 raws).2

theorem processBatch_fst_map (strat : Strategy) (pfx : String)
    (excl : String → Bool) (i : Nat) (raws : List String) :
    (processBatch strat pfx excl i raws).1.map Prod.snd
      = raws.filterMap (fun r => (construct strat pfx excl r).toOption) := by
  induction raws generalizing i with
  | nil => simp [processBatch]
  | cons raw rest ih =>
    simp only [processBatch, List.filterMap_cons]
    match h : construct strat pfx excl raw with
    | .error e => simp [Except.toOption, ih (i + 1)]
    | .ok v => simp [Except.toOption, ih (i + 1)]

theorem processBatch_snd (strat : Strategy) (pfx : String)
    (excl : String → Bool) (i : Nat) (raws : List String) :
    (processBatch strat pfx excl i raws).2
      = raws.filterMap (fun r =>
          match construct strat pfx excl r with
          | .error e => some e
          | .ok _ => none) := by
  induction raws generalizing i with
  | nil => simp [processBatch]
  | cons raw rest ih =>
    simp only [processBatch, List.filterMap_cons]
    match h : construct strat pfx excl raw with
    | .error e => simp [ih (i + 1)]
    | .ok v => simp [ih (i + 1)]

/-! ## Cross-scheme guard and change detector -/

/-- Modelled from the spec: the hard-failure errors of the core (spec §7). -/
inductive CoreError where
  | CrossSchemeComparison
  deriving DecidableEq

/-- Modelled from the spec: comparison of two Version value objects (spec
§3, §7): comparable only when they share the same scheme; comparing across
schemes fails loudly with `CrossSchemeComparison`, never an implicit
fallback. -/
def vcompare (a b : Version) : Except CoreError Ordering :=
  if a.scheme = b.scheme then
    .ok (cmpList a.key b.key)
  else
    .error .CrossSchemeComparison

/-- Modelled from the spec: the tagged change detection outcome (spec §3). -/
inductive ChangeResult where
  | NoHistory (new : String)
  | AllExcluded
  | Unchanged
  | Advanced (old new : String)
  | Regressed (old new : String)
  deriving DecidableEq

/-- Modelled from the spec: the change detector (spec §4.5): classify the
previously recorded newest version against the reducer's newest output. -/
def detect (previous : Option Version) (r : Reduction) :
    Except CoreError ChangeResult :=
  match r.newest with
  | none => .ok .AllExcluded
  | some n =>
    match previous with
    | none => .ok (.NoHistory n.raw)
    | some p =>
      match vcompare p n with
      | .error e => .error e
      | .ok .eq => .ok .Unchanged
      | .ok .lt => .ok (.Advanced p.raw n.raw)
      | .ok .gt => .ok (.Regressed p.raw n.raw)

/-! ## Scheme registry (`Project.get_version_class`) -/

/-- Modelled from the spec: the concrete version classes named by the tests
in `src/anitya/tests/lib/test_model.py` (`versions.RpmVersion` and the
generic class). -/
inductive VersionClass where
  | GenericVersion
  | RpmVersion
  deriving DecidableEq

/-- Modelled from the spec: the registry's fixed table, matching scheme
identifiers case-sensitively (spec §4.3); the entries are the ones the
in-repo tests exercise. -/
def versionClasses : List (String × VersionClass) :=
  [("Generic", .GenericVersion), ("RPM", .RpmVersion)]

/-- Modelled from the spec and pinned by the in-repo tests: the scheme
lookup behind `Project.get_version_class`.  The implementation module is
not under `src/`; the tests `test_get_version_class` and
`test_get_version_class_missing` in `src/anitya/tests/lib/test_model.py`
assert that `RPM` resolves to `RpmVersion` and that the unknown identifier
`Invalid` resolves to `None`, so the lookup returns an `Option` with no
generic fallback. -/
def get_version_class (scheme : String) : Option VersionClass :=
  (versionClasses.find? (fun p => p.1 == scheme)).map Prod.snd

/-! ## HTTP API v2 helpers (from `src/anitya/api_v2.py`) -/

/-- Python `int(...)` applied to a query-string argument: an optional sign
followed by a non-empty run of decimal digits; anything else raises
`ValueError` (modelled as `none`). -/
def pyInt (s : String) : Option Int :=
  match s.data with
  | [] => none
  | '-' :: rest =>
    if rest ≠ [] ∧ rest.all Char.isDigit then some (-(digitsToNat rest : Int))
    else none
  | '+' :: rest =>
    if rest ≠ [] ∧ rest.all Char.isDigit then some ((digitsToNat rest : Int))
    else none
  | l =>
    if l.all Char.isDigit then some ((digitsToNat l : Int))
    else none

/-- Embeds `_page_validator` (src/anitya/api_v2.py lines 23-41): cast to
int, reject values smaller than 1. -/
def pageValidator (arg : String) : Except String Int :=
  match pyInt arg with
  | none => .error "invalid literal for int"
  | some n =>
    if n < 1 then .error "Value must be greater than or equal to 1."
    else .ok n

/-- Embeds `_items_per_page_validator` (src/anitya/api_v2.py lines 44-64):
cast to int, reject values smaller than 1 or larger than 250. -/
def itemsPerPageValidator (arg : String) : Except String Int :=
  match pyInt arg with
  | none => .error "invalid literal for int"
  | some n =>
    if n < 1 then .error "Value must be greater than or equal to 1."
    else if n > 250 then .error "Value must be less than or equal to 250."
    else .ok n

/-- A page of query results, as produced by `BaseQuery.paginate`. -/
structure PageResult (α : Type) where
  page : Int
  items_per_page : Int
  total_items : Nat
  items : List α
  deriving DecidableEq

/-- Modelled from the spec, pinned by the in-repo tests: `BaseQuery.paginate`
(tests `test_defaults`, `test_no_results`, `test_nonsense_page`,
`test_nonsense_items_per_page`, `test_multiple_pages` in
`src/anitya/tests/lib/test_model.py`; the implementation module
`anitya/lib/model.py` is not under `src/`): raise `ValueError` for
`page < 1` or `items_per_page < 1`, otherwise return the requested window
of the ordered rows together with the total row count. -/
def paginate {α : Type} (rows : List α) (page items_per_page : Int) :
    Except String (PageResult α) :=
  if page < 1 then .error "page must be 1 or greater."
  else if items_per_page < 1 then .error "items_per_page must be 1 or greater."
  else .ok ⟨page, items_per_page, rows.length,
    (rows.drop ((page - 1) * items_per_page).toNat).take items_per_page.toNat⟩

/-- `paginate` with its defaults: page 1, 25 items per page
(`test_defaults`). -/
def paginateDefault {α : Type} (rows : List α) : Except String (PageResult α) :=
  paginate rows 1 25

/-- Body of a response of `ProjectsResource.post`: either the created
project's JSON or the error dictionary of a `ProjectExists` failure. -/
inductive PostBody (π ε : Type) where
  | project (p : π)
  | errorDict (e : ε)
  deriving DecidableEq

/-- An HTTP response of `ProjectsResource.post`: status code plus body. -/
structure PostResponse (π ε : Type) where
  status : Nat
  body : PostBody π ε
  deriving DecidableEq

/-- Embeds `ProjectsResource.post` (src/anitya/api_v2.py lines 244-258):
`anitya.lib.create_project` either returns the created project or raises
`ProjectExists`; the handler returns the project JSON with status 201, or
the exception's dictionary with status 409.  `create_project` itself is
not under `src/`, so its outcome is the parameter. -/
def projects_post {π ε : Type} (outcome : Except ε π) : PostResponse π ε :=
  match outcome with
  | .ok p => ⟨201, .project p⟩
  | .error e => ⟨409, .errorDict e⟩

/-! ## Claim theorems -/

/-- C2: for parsed versions of one scheme, compare yields exactly one of
less, equal, greater; it is antisymmetric (`compare a b = less` iff
`compare b a = greater`) and transitive — a total preorder.  Every
modelled strategy compares parsed versions with `cmpList` on their token
sequences; the concrete conjuncts show that distinct outcomes arise,
including the padding rule equating `1.0` and `1.0.0`. -/
theorem compare_total_preorder (a b c : List Seg) :
    ((cmpList a b = .lt ∧ cmpList a b ≠ .eq ∧ cmpList a b ≠ .gt) ∨
      (cmpList a b ≠ .lt ∧ cmpList a b = .eq ∧ cmpList a b ≠ .gt) ∨
      (cmpList a b ≠ .lt ∧ cmpList a b ≠ .eq ∧ cmpList a b = .gt)) ∧
    (cmpList a b = .lt ↔ cmpList b a = .gt) ∧
    (cmpList a b = .lt → cmpList b c = .lt → cmpList a c = .lt) ∧
    (cmpList a b = .eq → cmpList b c = .eq → cmpList a c = .eq) ∧
    cmpList (tokenize "1.0") (tokenize "1.1") = .lt ∧
    cmpList (tokenize "1.0") (tokenize "1.0.0") = .eq := by
  refine ⟨?_, ?_, ?_, ?_, by decide, by decide⟩
  · rcases h : cmpList a b with _ | _ | _ <;> simp [h]
  · exact Iff.symm OrientedCmp.cmp_eq_gt
  · exact fun h1 h2 => TransCmp.lt_trans h1 h2
  · exact fun h1 h2 => (TransCmp.cmp_congr_left h1).trans h2

/-- C7: comparing two Version value objects constructed under different
scheme identifiers fails with `CrossSchemeComparison` and never silently
returns an ordering result. -/
theorem vcompare_cross_scheme (a b : Version) (h : a.scheme ≠ b.scheme) :
    vcompare a b = .error .CrossSchemeComparison ∧ ∀ o, vcompare a b ≠ .ok o := by
  have he : vcompare a b = .error .CrossSchemeComparison := by
    unfold vcompare
    rw [if_neg h]
  exact ⟨he, fun o ho => by rw [he] at ho; cases ho⟩

/-- Witness for C7 at two concrete versions built under the Generic and
Numeric schemes. -/
theorem vcompare_cross_scheme_witness :
    vcompare ⟨"1.0", "1.0", "Generic", false, [Seg.num 1, Seg.num 0]⟩
        ⟨"1.0", "1.0", "Numeric", false, [Seg.num 1, Seg.num 0]⟩ =
      .error .CrossSchemeComparison ∧
    ∀ o, vcompare ⟨"1.0", "1.0", "Generic", false, [Seg.num 1, Seg.num 0]⟩
        ⟨"1.0", "1.0", "Numeric", false, [Seg.num 1, Seg.num 0]⟩ ≠ .ok o :=
  vcompare_cross_scheme _ _ (by decide)

/-- C1 counterexample: at the unknown scheme identifiers the claim itself
names, the registry lookup behind `Project.get_version_class` returns
`none` — not the generic strategy with a warning flag — exactly as the
in-repo test `test_get_version_class_missing` asserts, so the claim's
"never an empty/None result" is false on the code. -/
theorem get_version_class_unknown_counterexample :
    get_version_class "Invalid" = none ∧
      get_version_class "no-such-ecosystem" = none ∧
      get_version_class "Invalid" ≠ some VersionClass.GenericVersion :=
  ⟨rfl, rfl, by decide⟩

/-- C1 amended: a scheme identifier that does not match the registry's
fixed table resolves to `none` (a lookup miss the caller must handle), not
to the generic strategy and not to an error; identifiers in the table
resolve to their class (`RPM` to `RpmVersion`). -/
theorem get_version_class_unknown (scheme : String)
    (h : ∀ p ∈ versionClasses, p.1 ≠ scheme) :
    get_version_class scheme = none ∧
      get_version_class "RPM" = some VersionClass.RpmVersion := by
  refine ⟨?_, rfl⟩
  have hf : versionClasses.find? (fun p => p.1 == scheme) = none :=
    List.find?_eq_none.2 (fun p hp => by simpa using h p hp)
  unfold get_version_class
  rw [hf]
  rfl

/-- Witness for C1's amended claim at the test's identifier. -/
theorem get_version_class_unknown_witness :
    get_version_class "Invalid" = none ∧
      get_version_class "RPM" = some VersionClass.RpmVersion :=
  get_version_class_unknown "Invalid" (by decide)

/-- C3: the change detector classifies the outcome exactly as specified:
`AllExcluded` when the reduction has no newest; `NoHistory` when only the
reduction has one; and `Unchanged`, `Advanced` or `Regressed` according to
the comparison of the previous newest against the current one.  The final
conjunct is spec §8 scenario 5: previous `1.0`, current newest `0.9`,
giving `Regressed("1.0", "0.9")`. -/
theorem detect_classification (previous : Option Version) (r : Reduction) :
    (r.newest = none → detect previous r = .ok .AllExcluded) ∧
    (∀ n, previous = none → r.newest = some n →
      detect previous r = .ok (.NoHistory n.raw)) ∧
    (∀ p n, previous = some p → r.newest = some n → vcompare p n = .ok .eq →
      detect previous r = .ok .Unchanged) ∧
    (∀ p n, previous = some p → r.newest = some n → vcompare p n = .ok .lt →
      detect previous r = .ok (.Advanced p.raw n.raw)) ∧
    (∀ p n, previous = some p → r.newest = some n → vcompare p n = .ok .gt →
      detect previous r = .ok (.Regressed p.raw n.raw)) ∧
    detect (some ⟨"1.0", "1.0", "Generic", false, [Seg.num 1, Seg.num 0]⟩)
        (reduce genericStrategy "" (fun _ => false) ["0.9"]) =
      .ok (.Regressed "1.0" "0.9") := by
  refine ⟨?_, ?_, ?_, ?_, ?_, by decide⟩
  · intro hn
    simp [detect, hn]
  · intro n hp hn
    simp [detect, hn, hp]
  · intro p n hp hn hc
    simp [detect, hn, hp, hc]
  · intro p n hp hn hc
    simp [detect, hn, hp, hc]
  · intro p n hp hn hc
    simp [detect, hn, hp, hc]

/-- C4: the reducer's ordered history is the index-tagged history stripped
of its positions; it is sorted descending by the strategy's compare (no
entry sorts strictly below a later one), and entries of equal precedence
keep strictly increasing input positions (stable sort).  The two concrete
conjuncts reorder the duplicate-precedence entries `1.0`/`1.00` and show
the output preserves each input order. -/
theorem reduce_sorted_stable (strat : Strategy) (pfx : String)
    (excl : String → Bool) (raws : List String) :
    (reduce strat pfx excl raws).ordered_history
        = (reduceIndexed strat pfx excl raws).map Prod.snd ∧
    (reduce strat pfx excl raws).ordered_history.Pairwise
        (fun a b => cmpList a.key b.key ≠ .lt) ∧
    (reduceIndexed strat pfx excl raws).Pairwise
        (fun u v => pairCmp u v = .eq → u.1 < v.1) ∧
    (reduce genericStrategy "" (fun _ => false)
        ["1.0", "1.00", "0.5"]).ordered_history.map Version.raw
      = ["1.0", "1.00", "0.5"] ∧
    (reduce genericStrategy "" (fun _ => false)
        ["1.00", "1.0", "0.5"]).ordered_history.map Version.raw
      = ["1.00", "1.0", "0.5"] := by
  refine ⟨rfl, ?_, ?_, by decide, by decide⟩
  · exact (reduceIndexed_pairwise strat pfx excl raws).map Prod.snd
      (fun u v huv => huv.1)
  · exact (reduceIndexed_pairwise strat pfx excl raws).imp (fun huv => huv.2)

/-- C5: a parse failure on one entry of a batch never aborts the others:
the errors output is exactly the failing entries with their reasons, the
ordered history is a permutation of exactly the successfully parsed
entries, and on the spec §8 scenario 6 input `["1.0", "abc", "1.1"]` under
the strictly numeric scheme, `abc` lands in the errors with its reason
while `1.0` and `1.1` are processed and newest is `1.1`. -/
theorem reduce_error_isolation (strat : Strategy) (pfx : String)
    (excl : String → Bool) (raws : List String) :
    (reduce strat pfx excl raws).errors
        = raws.filterMap (fun r =>
            match construct strat pfx excl r with
            | .error e => some e
            | .ok _ => none) ∧
    (reduce strat pfx excl raws).ordered_history.Perm
        (raws.filterMap (fun r => (construct strat pfx excl r).toOption)) ∧
    (reduce numericStrategy "" (fun _ => false) ["1.0", "abc", "1.1"]).errors
        = [("abc", "no numeric components")] ∧
    (reduce numericStrategy "" (fun _ => false)
        ["1.0", "abc", "1.1"]).ordered_history.map Version.raw
      = ["1.1", "1.0"] ∧
    (reduce numericStrategy "" (fun _ => false)
        ["1.0", "abc", "1.1"]).newest.map Version.raw
      = some "1.1" := by
  refine ⟨processBatch_snd strat pfx excl 0 raws, ?_, by decide, by decide, by decide⟩
  have hp : Perm (reduceIndexed strat pfx excl raws)
      (processBatch strat pfx excl 0 raws).1 :=
    stableSortDesc_perm pairCmp _
  have hm := hp.map Prod.snd
  rw [processBatch_fst_map strat pfx excl 0 raws] at hm
  exact hm

/-- C6: prefix stripping during construction: a non-empty configured
prefix that heads the raw string is removed (the normalized form is the
raw string with exactly that prefix cut), an empty or absent prefix
leaves the raw string unmodified and raises no error (construction under
the generic scheme always succeeds), and on spec §8 scenario 3 the inputs
`release-1.0`, `release-1.1`, `2.0` normalize to `1.0`, `1.1`, `2.0` with
newest `2.0`. -/
theorem construct_pfx_stripping (pfx raw : String) (excl : String → Bool) :
    (pfx ≠ "" → pfx.data.isPrefixOf raw.data →
      pfx.data ++ (stripPfx pfx raw).data = raw.data) ∧
    (pfx = "" ∨ ¬ pfx.data.isPrefixOf raw.data → stripPfx pfx raw = raw) ∧
    (∀ v, construct genericStrategy pfx excl raw = .ok v →
      v.normalized = stripPfx pfx raw ∧ v.raw = raw) ∧
    (∃ v, construct genericStrategy pfx excl raw = .ok v) ∧
    ["release-1.0", "release-1.1", "2.0"].map (stripPfx "release-")
        = ["1.0", "1.1", "2.0"] ∧
    (reduce genericStrategy "release-" (fun _ => false)
        ["release-1.0", "release-1.1", "2.0"]).newest.map Version.raw
      = some "2.0" := by
  refine ⟨?_, ?_, ?_, ?_, by decide, by decide⟩
  · intro h1 h2
    unfold stripPfx
    rw [if_pos ⟨h1, h2⟩]
    obtain ⟨t, ht⟩ := List.isPrefixOf_iff_prefix.1 h2
    show pfx.data ++ (raw.data.drop pfx.data.length) = raw.data
    rw [← ht, List.drop_left]
  · rintro (h | h) <;> simp [stripPfx, h]
  · intro v hv
    simp only [construct, genericStrategy] at hv
    rw [Except.ok.injEq] at hv
    subst hv
    exact ⟨rfl, rfl⟩
  · exact ⟨⟨raw, stripPfx pfx raw, "Generic", excl raw,
      tokenize (stripPfx pfx raw)⟩, rfl⟩

/-- C8: the items_per_page validator returns the integer value exactly
when `1 <= int(arg) <= 250`, and fails with a `ValueError` message when
the value is below 1, above 250, or cannot be cast to an int — so no
successful projects listing uses a page size outside `[1, 250]`. -/
theorem items_per_page_validator_spec (arg : String) :
    (∀ n, itemsPerPageValidator arg = .ok n ↔
      (pyInt arg = some n ∧ 1 ≤ n ∧ n ≤ 250)) ∧
    (pyInt arg = none →
      itemsPerPageValidator arg = .error "invalid literal for int") ∧
    (∀ n, pyInt arg = some n → n < 1 →
      itemsPerPageValidator arg = .error "Value must be greater than or equal to 1.") ∧
    (∀ n, pyInt arg = some n → 250 < n →
      itemsPerPageValidator arg = .error "Value must be less than or equal to 250.") ∧
    itemsPerPageValidator "25" = .ok 25 ∧
    itemsPerPageValidator "250" = .ok 250 ∧
    itemsPerPageValidator "0" = .error "Value must be greater than or equal to 1." ∧
    itemsPerPageValidator "300" = .error "Value must be less than or equal to 250." ∧
    itemsPerPageValidator "abc" = .error "invalid literal for int" := by
  refine ⟨?_, ?_, ?_, ?_, by decide, by decide, by decide, by decide, by decide⟩
  · intro n
    unfold itemsPerPageValidator
    rcases hp : pyInt arg with _ | m
    · simp [hp]
    · simp only [hp]
      split_ifs with h1 h2 <;> simp <;> omega
  · intro he
    simp [itemsPerPageValidator, he]
  · intro n hp h1
    simp [itemsPerPageValidator, hp, h1]
  · intro n hp h2
    have h1 : ¬ n < 1 := by omega
    simp [itemsPerPageValidator, hp, h1, h2]

/-- C9: pagination rejects non-positive positions: the page validator
returns `int(arg)` exactly when it is at least 1 and fails otherwise, and
`paginate` fails for `page < 1` or `items_per_page < 1`, defaults to page 1
with 25 items per page, and returns an empty item list with the total
count unchanged when the requested page is past the last result. -/
theorem paginate_spec {α : Type} (rows : List α) (pg ipp : Int) (arg : String) :
    (∀ n, pageValidator arg = .ok n ↔ (pyInt arg = some n ∧ 1 ≤ n)) ∧
    (pg < 1 → paginate rows pg ipp = .error "page must be 1 or greater.") ∧
    (1 ≤ pg → ipp < 1 →
      paginate rows pg ipp = .error "items_per_page must be 1 or greater.") ∧
    (∃ pr, paginateDefault rows = .ok pr ∧ pr.page = 1 ∧
      pr.items_per_page = 25 ∧ pr.total_items = rows.length) ∧
    (1 ≤ pg → 1 ≤ ipp → rows.length ≤ ((pg - 1) * ipp).toNat →
      ∃ pr, paginate rows pg ipp = .ok pr ∧ pr.items = [] ∧
        pr.total_items = rows.length ∧ pr.page = pg) ∧
    pageValidator "0" = .error "Value must be greater than or equal to 1." ∧
    pageValidator "abc" = .error "invalid literal for int" := by
  refine ⟨?_, ?_, ?_, ?_, ?_, by decide, by decide⟩
  · intro n
    unfold pageValidator
    rcases hp : pyInt arg with _ | m
    · simp [hp]
    · simp only [hp]
      split_ifs with h1 <;> simp <;> omega
  · intro h
    simp [paginate, h]
  · intro h1 h2
    have hp1 : ¬ pg < 1 := by omega
    simp [paginate, hp1, h2]
  · exact ⟨⟨1, 25, rows.length,
      (rows.drop (((1 : Int) - 1) * 25).toNat).take (25 : Int).toNat⟩,
      rfl, rfl, rfl, rfl⟩
  · intro h1 h2 h3
    have hp1 : ¬ pg < 1 := by omega
    have hp2 : ¬ ipp < 1 := by omega
    refine ⟨⟨pg, ipp, rows.length,
      (rows.drop ((pg - 1) * ipp).toNat).take ipp.toNat⟩, ?_, ?_, rfl, rfl⟩
    · simp [paginate, hp1, hp2]
    · show (rows.drop ((pg - 1) * ipp).toNat).take ipp.toNat = []
      rw [List.drop_eq_nil_of_le h3]
      simp

/-- C10: the projects POST handler returns the created project's JSON with
status 201 when creation succeeds, and status 409 with the error
dictionary when the project already exists; those are the only outcomes,
and 201 happens exactly on success. -/
theorem projects_post_spec {π ε : Type} (outcome : Except ε π) :
    (∀ p, outcome = .ok p → projects_post outcome = ⟨201, .project p⟩) ∧
    (∀ e, outcome = .error e → projects_post outcome = ⟨409, .errorDict e⟩) ∧
    ((projects_post outcome).status = 201 ↔ ∃ p, outcome = .ok p) ∧
    ((projects_post outcome).status = 201 ∨ (projects_post outcome).status = 409) ∧
    projects_post (Except.ok "test_project" : Except String String)
        = ⟨201, .project "test_project"⟩ ∧
    projects_post (Except.error "project exists" : Except String String)
        = ⟨409, .errorDict "project exists"⟩ := by
  refine ⟨?_, ?_, ?_, ?_, rfl, rfl⟩
  · rintro p rfl
    rfl
  · rintro e rfl
    rfl
  · cases outcome with
    | ok p => simp [projects_post]
    | error e => simp [projects_post]
  · cases outcome with
    | ok p => exact Or.inl rfl
    | error e => exact Or.inr rfl

end Anitya
